import Mathlib

/-!
Verification development for the fuzzy stock-search module of the
portfolio-comparison front-end (the `Search` page).

The module is embedded shallowly: strings are `List Char`, JavaScript
numbers are `ℚ`, and each helper of the page (`levenshteinDistance`,
`hasAllCharacters`, `characterFrequencyScore`, `isSubsequence`,
`calculateSimilarity`, `fuzzySearch`, `handleAddStock`,
`handleRemoveStock`) is translated to a Lean function of the same name.
`String.prototype.toLowerCase` is modelled by mapping `Char.toLower`,
`startsWith` by `List.IsPrefix`, `includes` by `List.IsInfix`, and the
stable `Array.prototype.sort` by `List.mergeSort` with the comparator
`(a, b) => b.score - a.score`.
-/

attribute [local semireducible] Rat.mul Rat.add Rat.sub Rat.inv Rat.ofScientific

set_option maxRecDepth 16384

/-- `s.toLowerCase()` on the character list embedding of a string. -/
def toLowerStr (s : List Char) : List Char := s.map Char.toLower

/-- `s.trim()`: drop whitespace from both ends. -/
def trim (s : List Char) : List Char :=
  ((s.dropWhile Char.isWhitespace).reverse.dropWhile Char.isWhitespace).reverse

/-- One character of the regex class `[ㄱ-ㅎㅏ-ㅣ가-힣]` used by the search
page to detect Korean queries: compatibility jamo consonants
U+3131–U+314E, vowels U+314F–U+3163, and Hangul syllables U+AC00–U+D7A3. -/
def isKoreanChar (c : Char) : Bool :=
  (0x3131 ≤ c.toNat && c.toNat ≤ 0x314E) ||
    (0x314F ≤ c.toNat && c.toNat ≤ 0x3163) ||
    (0xAC00 ≤ c.toNat && c.toNat ≤ 0xD7A3)

/-- `/[ㄱ-ㅎㅏ-ㅣ가-힣]/.test(query)`. -/
def containsKorean (s : List Char) : Bool := s.any isKoreanChar

/-- One inner step of the Levenshtein dynamic program: given the row
`dp[i-1]` (starting at column `j-1`, so its head is the diagonal cell),
the current character `c1 = str1[i-1]`, the remaining characters of
`str2`, and the cell `dp[i][j-1]` just computed to the left, produce the
cells `dp[i][j], ..., dp[i][n]`. -/
def levNextRowAux (c1 : Char) : List Char → List Nat → Nat → List Nat
  | [], _, _ => []
  | _ :: _, [], _ => []
  | c2 :: cs, diag :: rest, left =>
    let up := rest.headD 0
    let cur :=
      if c1 = c2 then diag
      else Nat.min (up + 1) (Nat.min (left + 1) (diag + 1))
    cur :: levNextRowAux c1 cs rest cur

/-- The outer loop of the Levenshtein dynamic program: fold the rows
`dp[1], ..., dp[m]` starting from `dp[0] = [0, 1, ..., n]`; row `i`
starts with `dp[i][0] = i`. -/
def levRows (str2 : List Char) : List Char → Nat → List Nat → List Nat
  | [], _, row => row
  | c1 :: rest, i, row =>
    levRows str2 rest (i + 1) ((i + 1) :: levNextRowAux c1 str2 row (i + 1))

/-- `levenshteinDistance(str1, str2)`: the classic dynamic-programming
edit distance with unit-cost insertion, deletion and substitution; the
answer is the last cell `dp[m][n]` of the last row. -/
def levenshteinDistance (str1 str2 : List Char) : Nat :=
  (levRows str2 str1 0 (List.range (str2.length + 1))).getLastD 0

/-- `hasAllCharacters(query, text)`: every character of `query` occurs
somewhere in `text` (set membership, order and multiplicity ignored). -/
def hasAllCharacters (query text : List Char) : Bool :=
  query.all (fun c => text.contains c)

/-- `characterFrequencyScore(query, text)`: over the distinct characters
of `query`, sum `min(count in query, count in text)`, divide by the
total character count of `query`, and scale to 100. -/
def characterFrequencyScore (query text : List Char) : ℚ :=
  if 0 < (query.dedup.map fun c => query.count c).sum then
    (((query.dedup.map fun c => Nat.min (query.count c) (text.count c)).sum : ℚ) /
        ((query.dedup.map fun c => query.count c).sum : ℚ)) * 100
  else 0

/-- `isSubsequence(query, text)`: greedy scan deciding whether the
characters of `query` occur in `text` in order (not necessarily
contiguously). -/
def isSubsequence : List Char → List Char → Bool
  | [], _ => true
  | _ :: _, [] => false
  | q :: qs, t :: ts =>
    if t = q then isSubsequence qs ts else isSubsequence (q :: qs) ts

/-- The local `similarity` value of the edit-distance rule:
`(1 - distance / max(len(query), len(text))) * 100`. -/
def normalizedEditSimilarity (query text : List Char) : ℚ :=
  (1 - (levenshteinDistance query text : ℚ) /
      ((Nat.max query.length text.length : Nat) : ℚ)) * 100

/-- `calculateSimilarity(query, text)`: the ordered cascade of scoring
rules of the search page. -/
def calculateSimilarity (query text : List Char) : ℚ :=
  if query = [] ∨ text = [] then 0
  else if toLowerStr text = toLowerStr query then 100
  else if toLowerStr query <+: toLowerStr text then 95
  else if toLowerStr query <:+: toLowerStr text then 85
  else if hasAllCharacters (toLowerStr query) (toLowerStr text) then
    max (if isSubsequence (toLowerStr query) (toLowerStr text) then (70 : ℚ) else 50)
      (characterFrequencyScore (toLowerStr query) (toLowerStr text) * 0.8)
  else if 0 < Nat.max (toLowerStr query).length (toLowerStr text).length ∧
      (50 : ℚ) ≤ normalizedEditSimilarity (toLowerStr query) (toLowerStr text) then
    normalizedEditSimilarity (toLowerStr query) (toLowerStr text) * 0.7
  else if isSubsequence (toLowerStr query) (toLowerStr text) then 40
  else if 60 < characterFrequencyScore (toLowerStr query) (toLowerStr text) then
    characterFrequencyScore (toLowerStr query) (toLowerStr text) * 0.5
  else 0

/-- A catalog entry: ticker symbol, English name, optional Korean name. -/
structure Stock where
  symbol : List Char
  name : List Char
  krName : Option (List Char)
deriving DecidableEq, Repr

/-- The per-candidate combined score of `fuzzySearch`: score the symbol,
the English name and the (possibly absent) Korean name, then combine
with the Korean-aware weights when the query contains Korean characters
and with the symbol-boosting weights otherwise. -/
def combinedScore (query : List Char) (stock : Stock) : ℚ :=
  if containsKorean query then
    max ((if toLowerStr (stock.krName.getD []) ≠ [] then
        calculateSimilarity (toLowerStr query) (toLowerStr (stock.krName.getD []))
      else 0) * 1.2)
      (max (calculateSimilarity (toLowerStr query) (toLowerStr stock.name) * 0.7)
        (calculateSimilarity (toLowerStr query) (toLowerStr stock.symbol) * 0.5))
  else
    max (calculateSimilarity (toLowerStr query) (toLowerStr stock.symbol) * 1.1)
      (max (calculateSimilarity (toLowerStr query) (toLowerStr stock.name))
        ((if toLowerStr (stock.krName.getD []) ≠ [] then
            calculateSimilarity (toLowerStr query) (toLowerStr (stock.krName.getD []))
          else 0) * 0.6))

/-- The `results` array of `fuzzySearch`: each catalog stock paired with
its combined score, kept only when the score exceeds 25. -/
def fuzzyResults (query : List Char) (stocks : List Stock) : List (Stock × ℚ) :=
  stocks.filterMap fun stock =>
    if 25 < combinedScore query stock then some (stock, combinedScore query stock)
    else none

/-- The comparator `(a, b) => b.score - a.score`: `a` may precede `b`
exactly when `b`'s score is at most `a`'s. -/
def byScoreDesc (a b : Stock × ℚ) : Bool := decide (b.2 ≤ a.2)

/-- `fuzzySearch(query, stocks)`: empty for a whitespace-only query;
otherwise score, filter, sort by score descending and keep the top 10. -/
def fuzzySearch (query : List Char) (stocks : List Stock) : List Stock :=
  if trim query = [] then []
  else (((fuzzyResults query stocks).mergeSort byScoreDesc).take 10).map Prod.fst

/-- A selected stock: a catalog entry plus a placeholder image `src`. -/
structure SelectedStock where
  symbol : List Char
  name : List Char
  krName : Option (List Char)
  src : String
deriving DecidableEq, Repr

/-- The page state the selection handlers touch: the search keyword and
the ordered selection. -/
structure SearchState where
  keyword : List Char
  selectedStocks : List SelectedStock
deriving DecidableEq, Repr

/-- The fixed list of placeholder image references. -/
def defaultImages : List String :=
  ["https://static.toss.im/icons/png/4x/icon-step1-gray-blue.png",
   "https://static.toss.im/icons/png/4x/icon-step2-gray-blue.png",
   "https://static.toss.im/icons/png/4x/icon-step3-gray-blue.png",
   "https://static.toss.im/icons/png/4x/icon-step4-gray-blue.png",
   "https://static.toss.im/icons/png/4x/icon-step5-gray-blue.png"]

/-- `handleAddStock`: no-op at capacity 5 or when the symbol is already
selected; otherwise append the stock with the slot image for the current
selection length and clear the keyword. -/
def handleAddStock (st : SearchState) (stock : Stock) : SearchState :=
  if 5 ≤ st.selectedStocks.length then st
  else if st.selectedStocks.any (fun s => decide (s.symbol = stock.symbol)) then st
  else
    { keyword := [],
      selectedStocks := st.selectedStocks ++
        [{ symbol := stock.symbol, name := stock.name, krName := stock.krName,
           src := defaultImages.getD st.selectedStocks.length "" }] }

/-- `handleRemoveStock`: keep exactly the entries whose symbol differs. -/
def handleRemoveStock (st : SearchState) (symbol : List Char) : SearchState :=
  { st with
    selectedStocks := st.selectedStocks.filter fun s => decide (s.symbol ≠ symbol) }

/-- A user action on the selection. -/
inductive SelOp where
  | add : Stock → SelOp
  | remove : List Char → SelOp

/-- Apply one selection action. -/
def applyOp (st : SearchState) : SelOp → SearchState
  | SelOp.add stock => handleAddStock st stock
  | SelOp.remove symbol => handleRemoveStock st symbol

/-- Apply a sequence of selection actions in order. -/
def applyOps (st : SearchState) (ops : List SelOp) : SearchState :=
  ops.foldl applyOp st

/-- The initial page state: empty keyword, empty selection. -/
def initialState : SearchState := { keyword := [], selectedStocks := [] }

/-- `Char.toLower` is idempotent: lowering an already-lowered character
changes nothing. -/
theorem char_toLower_idem (c : Char) : c.toLower.toLower = c.toLower := by
  by_cases h : c.toNat ≥ 65 ∧ c.toNat ≤ 90
  · have h1 : c.toLower = Char.ofNat (c.toNat + 32) := by
      show (if c.toNat ≥ 65 ∧ c.toNat ≤ 90 then Char.ofNat (c.toNat + 32) else c) =
        Char.ofNat (c.toNat + 32)
      rw [if_pos h]
    rw [h1]
    obtain ⟨ha, hb⟩ := h
    rw [ge_iff_le] at ha
    generalize c.toNat = n at ha hb
    interval_cases n <;> decide
  · have h1 : c.toLower = c := by
      show (if c.toNat ≥ 65 ∧ c.toNat ≤ 90 then Char.ofNat (c.toNat + 32) else c) = c
      rw [if_neg h]
    rw [h1, h1]

/-- Lowercasing a string twice equals lowercasing it once. -/
theorem toLowerStr_toLowerStr (s : List Char) :
    toLowerStr (toLowerStr s) = toLowerStr s := by
  simp [toLowerStr, List.map_map, Function.comp_def, char_toLower_idem]

/-- Lowercasing preserves emptiness. -/
theorem toLowerStr_eq_nil (s : List Char) : toLowerStr s = [] ↔ s = [] := by
  simp [toLowerStr]

/-- Lowercasing preserves length. -/
theorem toLowerStr_length (s : List Char) : (toLowerStr s).length = s.length := by
  simp [toLowerStr]

/-- Scoring pre-lowered strings gives the same result as scoring the
originals: the scorer lowercases its inputs itself. -/
theorem calculateSimilarity_toLower (q t : List Char) :
    calculateSimilarity (toLowerStr q) (toLowerStr t) = calculateSimilarity q t := by
  simp only [calculateSimilarity, toLowerStr_toLowerStr, toLowerStr_eq_nil]

/-- Scoring against the empty text gives 0. -/
theorem calculateSimilarity_nil_right (q : List Char) :
    calculateSimilarity q [] = 0 := by
  simp [calculateSimilarity]

/-- C2: for every query and every catalog stock, the combined candidate
score is `max(krScore * 1.2, nameScore * 0.7, symbolScore * 0.5)` when
the query contains a Korean character and
`max(symbolScore * 1.1, nameScore, krScore * 0.6)` otherwise, with
`krScore = 0` for a stock without a Korean name. -/
theorem combinedScore_policy (q : List Char) (s : Stock) :
    combinedScore q s =
      if containsKorean q then
        max ((match s.krName with
            | none => (0 : ℚ)
            | some k => calculateSimilarity q k) * 1.2)
          (max (calculateSimilarity q s.name * 0.7)
            (calculateSimilarity q s.symbol * 0.5))
      else
        max (calculateSimilarity q s.symbol * 1.1)
          (max (calculateSimilarity q s.name)
            ((match s.krName with
              | none => (0 : ℚ)
              | some k => calculateSimilarity q k) * 0.6)) := by
  have hkr : (if toLowerStr (s.krName.getD []) ≠ [] then
      calculateSimilarity (toLowerStr q) (toLowerStr (s.krName.getD []))
    else 0) =
      (match s.krName with
        | none => (0 : ℚ)
        | some k => calculateSimilarity q k) := by
    cases s.krName with
    | none => simp [toLowerStr]
    | some k =>
      by_cases hk : k = []
      · subst hk
        simp [toLowerStr, calculateSimilarity_nil_right]
      · simp [Option.getD, toLowerStr_eq_nil, hk, calculateSimilarity_toLower]
  simp only [combinedScore]
  rw [hkr]
  simp only [calculateSimilarity_toLower]

/-- C8 counterexample: with query `"A"` and text `"a"` the lower-cased
text starts with the lower-cased query and query ≠ text, yet the score
is the exact-match 100, not 95. -/
theorem prefix_rule_counterexample :
    toLowerStr "A".toList <+: toLowerStr "a".toList ∧
      "A".toList ≠ "a".toList ∧
      calculateSimilarity "A".toList "a".toList = 100 ∧
      calculateSimilarity "A".toList "a".toList ≠ 95 := by
  decide

/-- C8 (amended): for every non-empty query, if the lower-cased text
starts with the lower-cased query and the lower-cased forms differ, the
score is 95. -/
theorem prefix_rule_score (q t : List Char) (hq : q ≠ [])
    (hne : toLowerStr t ≠ toLowerStr q)
    (hpre : toLowerStr q <+: toLowerStr t) :
    calculateSimilarity q t = 95 := by
  have ht : t ≠ [] := by
    intro h
    subst h
    have h0 : toLowerStr q = [] := List.prefix_nil.mp (by simpa [toLowerStr] using hpre)
    exact hq ((toLowerStr_eq_nil q).mp h0)
  simp only [calculateSimilarity]
  rw [if_neg (by simp [hq, ht]), if_neg hne, if_pos hpre]

/-- C8 witness: `"appl"` against `"Apple Inc."` is a proper
case-insensitive prefix match and scores 95. -/
theorem prefix_rule_score_witness :
    calculateSimilarity "appl".toList "Apple Inc.".toList = 95 :=
  prefix_rule_score "appl".toList "Apple Inc.".toList (by decide) (by decide)
    (by decide)

/-- The greedy scan agrees with the library's sublist test. -/
theorem isSubsequence_eq_isSublist (l₁ l₂ : List Char) :
    isSubsequence l₁ l₂ = l₁.isSublist l₂ := by
  induction l₂ generalizing l₁ with
  | nil => cases l₁ <;> simp [isSubsequence, List.isSublist]
  | cons t ts ih =>
    cases l₁ with
    | nil => simp [isSubsequence, List.isSublist]
    | cons q qs =>
      simp only [isSubsequence, List.isSublist, beq_iff_eq]
      by_cases h : q = t
      · simp [h, ih]
      · have h2 : ¬t = q := fun hh => h hh.symm
        simp [h, h2, ih]

/-- The greedy scan decides exactly the subsequence relation: the
characters of `l₁` occur in `l₂` in order, not necessarily contiguously. -/
theorem isSubsequence_iff (l₁ l₂ : List Char) :
    isSubsequence l₁ l₂ = true ↔ List.Sublist l₁ l₂ := by
  rw [isSubsequence_eq_isSublist]
  exact List.isSublist_iff_sublist

/-- `hasAllCharacters` decides the character-set inclusion it is named
after. -/
theorem hasAllCharacters_iff (q t : List Char) :
    hasAllCharacters q t = true ↔ ∀ c ∈ q, c ∈ t := by
  simp [hasAllCharacters]

/-- The character-frequency score never exceeds 100: each per-character
minimum is at most the character's count in the query. -/
theorem characterFrequencyScore_le_100 (q t : List Char) :
    characterFrequencyScore q t ≤ 100 := by
  unfold characterFrequencyScore
  split
  · rename_i h
    set M := (q.dedup.map fun c => Nat.min (q.count c) (t.count c)).sum with hM
    set T := (q.dedup.map fun c => q.count c).sum with hT
    have hle : M ≤ T := by
      rw [hM, hT]
      apply List.sum_le_sum
      intro c _
      exact Nat.min_le_left _ _
    have hT0 : (0 : ℚ) < (T : ℚ) := by exact_mod_cast h
    have h1 : ((M : ℚ) / (T : ℚ)) ≤ 1 := by
      rw [div_le_one hT0]
      exact_mod_cast hle
    calc (M : ℚ) / (T : ℚ) * 100 ≤ 1 * 100 := by
          apply mul_le_mul_of_nonneg_right h1 (by norm_num)
      _ = 100 := by norm_num
  · norm_num

/-- The character-frequency score is non-negative. -/
theorem characterFrequencyScore_nonneg (q t : List Char) :
    0 ≤ characterFrequencyScore q t := by
  unfold characterFrequencyScore
  split
  · positivity
  · norm_num

/-- The normalized edit-distance similarity never exceeds 100. -/
theorem normalizedEditSimilarity_le_100 (q t : List Char) :
    normalizedEditSimilarity q t ≤ 100 := by
  unfold normalizedEditSimilarity
  have h1 : (0 : ℚ) ≤ (levenshteinDistance q t : ℚ) /
      ((Nat.max q.length t.length : Nat) : ℚ) := by positivity
  nlinarith

/-- C3: when the lower-cased forms differ, there is no prefix or
substring match, but every query character occurs in the text, the score
is the larger of the subsequence score (70 in order, 50 otherwise) and
0.8 times the character-frequency score. -/
theorem similarity_charset_branch (q t : List Char) (hq : q ≠ []) (ht : t ≠ [])
    (hne : toLowerStr t ≠ toLowerStr q)
    (hpre : ¬ toLowerStr q <+: toLowerStr t)
    (hinf : ¬ toLowerStr q <:+: toLowerStr t)
    (hall : ∀ c ∈ toLowerStr q, c ∈ toLowerStr t) :
    calculateSimilarity q t =
      max (if List.Sublist (toLowerStr q) (toLowerStr t) then (70 : ℚ) else 50)
        (0.8 * ((((toLowerStr q).dedup.map fun c =>
            Nat.min ((toLowerStr q).count c) ((toLowerStr t).count c)).sum : ℚ) /
          (q.length : ℚ) * 100)) := by
  simp only [calculateSimilarity]
  rw [if_neg (by simp [hq, ht]), if_neg hne, if_neg hpre, if_neg hinf,
    if_pos ((hasAllCharacters_iff _ _).mpr hall)]
  congr 1
  · simp only [isSubsequence_iff]
  · unfold characterFrequencyScore
    rw [if_pos (by
      rw [List.sum_map_count_dedup_eq_length, toLowerStr_length]
      exact List.length_pos.mpr hq)]
    rw [List.sum_map_count_dedup_eq_length, toLowerStr_length]
    ring

/-- C3 witness: `"nflx"` against `"Netflix"` lands in the character-set
branch and scores 80 (the frequency sub-score dominates). -/
theorem similarity_charset_branch_witness :
    calculateSimilarity "nflx".toList "Netflix".toList = 80 := by
  rw [similarity_charset_branch "nflx".toList "Netflix".toList (by decide)
    (by decide) (by decide) (by decide) (by decide) (by decide)]
  decide

/-- The textbook recursive characterization of unit-cost Levenshtein
distance (insertion, deletion, substitution each cost 1), used to
validate the dynamic program. -/
def levSpec : List Char → List Char → Nat
  | [], ys => ys.length
  | x :: xs, [] => (x :: xs).length
  | x :: xs, y :: ys =>
    if x = y then levSpec xs ys
    else 1 + Nat.min (levSpec xs (y :: ys)) (Nat.min (levSpec (x :: xs) ys) (levSpec xs ys))

/-- `levSpec` against the empty string counts the remaining characters. -/
theorem levSpec_nil_right (xs : List Char) : levSpec xs [] = xs.length := by
  cases xs <;> simp [levSpec]

/-- The defining recurrence of `levSpec`, restated for rewriting. -/
theorem levSpec_cons (x y : Char) (xs ys : List Char) :
    levSpec (x :: xs) (y :: ys) =
      if x = y then levSpec xs ys
      else 1 + Nat.min (levSpec xs (y :: ys))
        (Nat.min (levSpec (x :: xs) ys) (levSpec xs ys)) := by
  simp [levSpec]

/-- `levSpec` against the empty first string counts the remaining
characters. -/
theorem levSpec_nil_left (ys : List Char) : levSpec [] ys = ys.length := by
  simp [levSpec]

/-- `Nat.min` is the `min` of the order instance (definitional). -/
theorem nat_min_eq (a b : Nat) : Nat.min a b = min a b := rfl

set_option maxHeartbeats 1000000 in
/-- `levSpec` also satisfies the edit-distance recurrence at the far end
of both strings: appending one character to each behaves exactly like
consing one to each. -/
theorem levSpec_append (n : Nat) : ∀ (a b : Char) (xs ys : List Char),
    xs.length + ys.length ≤ n →
    levSpec (xs ++ [a]) (ys ++ [b]) =
      if a = b then levSpec xs ys
      else 1 + Nat.min (levSpec xs (ys ++ [b]))
        (Nat.min (levSpec (xs ++ [a]) ys) (levSpec xs ys)) := by
  induction n with
  | zero =>
    intro a b xs ys h
    have hx : xs = [] := by
      cases xs with
      | nil => rfl
      | cons z zs => simp at h
    have hy : ys = [] := by
      cases ys with
      | nil => rfl
      | cons z zs => simp [hx] at h
    subst hx
    subst hy
    simp [levSpec_cons]
  | succ n ih =>
    intro a b xs ys h
    cases xs with
    | nil =>
      cases ys with
      | nil => simp [levSpec_cons]
      | cons y ys2 =>
        have ihy := ih a b [] ys2 (by simp at h ⊢; omega)
        simp only [List.nil_append] at ihy ⊢
        simp only [List.cons_append]
        rw [levSpec_cons a y [] (ys2 ++ [b]), levSpec_cons a y [] ys2, ihy]
        simp only [levSpec_nil_left, List.length_cons, List.length_append,
          List.length_singleton, List.length_nil, nat_min_eq]
        split_ifs <;> omega
    | cons x xs2 =>
      cases ys with
      | nil =>
        have ihx := ih a b xs2 [] (by simp at h ⊢; omega)
        simp only [List.nil_append] at ihx ⊢
        simp only [List.cons_append]
        rw [levSpec_cons x b (xs2 ++ [a]) [], levSpec_cons x b xs2 [], ihx]
        simp only [levSpec_nil_right, List.length_cons, List.length_append,
          List.length_singleton, List.length_nil, nat_min_eq]
        split_ifs <;> omega
      | cons y ys2 =>
        have ih1 := ih a b xs2 (y :: ys2) (by simp at h ⊢; omega)
        have ih2 := ih a b (x :: xs2) ys2 (by simp at h ⊢; omega)
        have ih3 := ih a b xs2 ys2 (by simp at h ⊢; omega)
        simp only [List.cons_append] at ih1 ih2 ih3 ⊢
        by_cases hxy : x = y
        · by_cases hab : a = b
          · rw [levSpec_cons x y (xs2 ++ [a]) (ys2 ++ [b]), ih1, ih2, ih3,
              levSpec_cons x y xs2 (ys2 ++ [b]), levSpec_cons x y (xs2 ++ [a]) ys2,
              levSpec_cons x y xs2 ys2]
            simp [hxy, hab]
          · rw [levSpec_cons x y (xs2 ++ [a]) (ys2 ++ [b]), ih1, ih2, ih3,
              levSpec_cons x y xs2 (ys2 ++ [b]), levSpec_cons x y (xs2 ++ [a]) ys2,
              levSpec_cons x y xs2 ys2]
            simp [hxy, hab]
        · by_cases hab : a = b
          · rw [levSpec_cons x y (xs2 ++ [a]) (ys2 ++ [b]), ih1, ih2, ih3,
              levSpec_cons x y xs2 (ys2 ++ [b]), levSpec_cons x y (xs2 ++ [a]) ys2,
              levSpec_cons x y xs2 ys2]
            simp [hxy, hab]
          · rw [levSpec_cons x y (xs2 ++ [a]) (ys2 ++ [b]), if_neg hxy]
            rw [ih1, if_neg hab]
            rw [ih2, if_neg hab]
            rw [ih3, if_neg hab]
            rw [if_neg hab]
            rw [levSpec_cons x y xs2 (ys2 ++ [b]), if_neg hxy]
            rw [levSpec_cons x y (xs2 ++ [a]) ys2, if_neg hxy]
            rw [levSpec_cons x y xs2 ys2, if_neg hxy]
            clear ih1 ih2 ih3
            simp only [nat_min_eq]
            generalize levSpec xs2 (y :: (ys2 ++ [b])) = A1
            generalize levSpec (xs2 ++ [a]) (y :: ys2) = A2
            generalize levSpec xs2 (y :: ys2) = A3
            generalize levSpec (x :: xs2) (ys2 ++ [b]) = B1
            generalize levSpec (x :: (xs2 ++ [a])) ys2 = B2
            generalize levSpec (x :: xs2) ys2 = B3
            generalize levSpec xs2 (ys2 ++ [b]) = C1
            generalize levSpec (xs2 ++ [a]) ys2 = C2
            generalize levSpec xs2 ys2 = C3
            have hmin : min (1 + min A1 (min A2 A3))
                (min (1 + min B1 (min B2 B3)) (1 + min C1 (min C2 C3))) =
                min (1 + min A1 (min B1 C1))
                  (min (1 + min A2 (min B2 C2)) (1 + min A3 (min B3 C3))) := by
              apply le_antisymm <;> simp only [le_min_iff, min_le_iff] <;> omega
            rw [hmin]

/-- Unit-cost edit distance is invariant under reversing both strings:
consequence of `levSpec_append`. -/
theorem levSpec_reverse (n : Nat) : ∀ (xs ys : List Char),
    xs.length + ys.length ≤ n →
    levSpec xs.reverse ys.reverse = levSpec xs ys := by
  induction n with
  | zero =>
    intro xs ys h
    have hx : xs = [] := by
      cases xs with
      | nil => rfl
      | cons z zs => simp at h
    have hy : ys = [] := by
      cases ys with
      | nil => rfl
      | cons z zs => simp [hx] at h
    subst hx
    subst hy
    rfl
  | succ n ih =>
    intro xs ys h
    cases xs with
    | nil => simp [levSpec_nil_left]
    | cons x xs2 =>
      cases ys with
      | nil => simp [levSpec_nil_right]
      | cons y ys2 =>
        rw [List.reverse_cons, List.reverse_cons,
          levSpec_append (xs2.reverse.length + ys2.reverse.length) x y
            xs2.reverse ys2.reverse (le_refl _),
          ← List.reverse_cons y ys2, ← List.reverse_cons x xs2,
          ih xs2 (y :: ys2) (by simp at h ⊢; omega),
          ih (x :: xs2) ys2 (by simp at h ⊢; omega),
          ih xs2 ys2 (by simp at h ⊢; omega),
          levSpec_cons x y xs2 ys2]

/-- Proof scaffolding for the dynamic program: the row of `levSpec`
values of one fixed first string `A` against the reversed prefixes of
the remaining text, starting from the already-consumed reversed prefix
`Brev`. -/
def rowFor (A : List Char) : List Char → List Char → List Nat
  | Brev, [] => [levSpec A Brev]
  | Brev, c2 :: cs => levSpec A Brev :: rowFor A (c2 :: Brev) cs

/-- The same row without its first cell. -/
def rowTail (A : List Char) : List Char → List Char → List Nat
  | _, [] => []
  | Brev, c2 :: cs => levSpec A (c2 :: Brev) :: rowTail A (c2 :: Brev) cs

/-- A row is its first cell followed by its tail. -/
theorem rowFor_eq (A : List Char) : ∀ (t2 Brev : List Char),
    rowFor A Brev t2 = levSpec A Brev :: rowTail A Brev t2 := by
  intro t2
  induction t2 with
  | nil => intro Brev; simp [rowFor, rowTail]
  | cons c2 cs ih =>
    intro Brev
    simp [rowFor, rowTail, ih (c2 :: Brev)]

/-- The head of a row is the `levSpec` value at the consumed prefix. -/
theorem rowFor_headD (A t2 Brev : List Char) :
    (rowFor A Brev t2).headD 0 = levSpec A Brev := by
  rw [rowFor_eq]
  rfl

/-- The inner loop of the dynamic program computes exactly the next
row's tail: each new cell is the `levSpec` value of `c1 :: A` against
the next reversed prefix, by the front recurrence of `levSpec`. -/
theorem levNextRowAux_spec (c1 : Char) (A : List Char) : ∀ (t2 Brev : List Char),
    levNextRowAux c1 t2 (rowFor A Brev t2) (levSpec (c1 :: A) Brev) =
      rowTail (c1 :: A) Brev t2 := by
  intro t2
  induction t2 with
  | nil => intro Brev; simp [rowFor, levNextRowAux, rowTail]
  | cons c2 cs ih =>
    intro Brev
    simp only [rowFor, levNextRowAux, rowTail]
    rw [rowFor_headD]
    have hcur : (if c1 = c2 then levSpec A Brev
        else Nat.min (levSpec A (c2 :: Brev) + 1)
          (Nat.min (levSpec (c1 :: A) Brev + 1) (levSpec A Brev + 1))) =
        levSpec (c1 :: A) (c2 :: Brev) := by
      rw [levSpec_cons c1 c2 A Brev]
      by_cases h : c1 = c2
      · simp [h]
      · simp only [if_neg h, nat_min_eq]
        generalize levSpec A (c2 :: Brev) = u
        generalize levSpec (c1 :: A) Brev = l
        generalize levSpec A Brev = d
        omega
    rw [hcur, ih (c2 :: Brev)]

/-- The outer loop of the dynamic program maps a row for the consumed
(reversed) prefix `Arev` to the row for the whole first string. -/
theorem levRows_spec (str2 : List Char) : ∀ (t1 Arev : List Char),
    levRows str2 t1 Arev.length (rowFor Arev [] str2) =
      rowFor (t1.reverse ++ Arev) [] str2 := by
  intro t1
  induction t1 with
  | nil => intro Arev; simp [levRows]
  | cons c1 rest ih =>
    intro Arev
    simp only [levRows]
    have h1 : Arev.length + 1 = levSpec (c1 :: Arev) [] := by
      rw [levSpec_nil_right, List.length_cons]
    rw [h1, levNextRowAux_spec c1 Arev str2 [], ← rowFor_eq, ← h1]
    have h2 := ih (c1 :: Arev)
    simp only [List.length_cons] at h2
    rw [h2, List.reverse_cons, List.append_assoc]
    rfl

/-- The initial row `[0, 1, ..., n]` is the `levSpec` row of the empty
first string. -/
theorem rowFor_nil (t2 : List Char) : ∀ B : List Char,
    rowFor [] B t2 = (List.range (t2.length + 1)).map (fun k => B.length + k) := by
  induction t2 with
  | nil => intro B; simp [rowFor, levSpec_nil_left, List.range_succ]
  | cons c cs ih =>
    intro B
    rw [show (c :: cs).length + 1 = (cs.length + 1) + 1 from rfl,
      List.range_succ_eq_map]
    simp only [rowFor, levSpec_nil_left, List.map_cons, List.map_map]
    rw [ih (c :: B)]
    simp only [Nat.add_zero]
    refine congrArg (List.cons B.length)
      (congrArg (fun f => List.map f (List.range (cs.length + 1))) ?_)
    funext k
    simp only [Function.comp_apply, List.length_cons]
    omega

/-- `getLastD` ignores its default on a non-empty list. -/
theorem getLastD_congr (l : List Nat) (h : l ≠ []) (d1 d2 : Nat) :
    l.getLastD d1 = l.getLastD d2 := by
  cases l with
  | nil => exact absurd rfl h
  | cons a l2 =>
    cases l2 with
    | nil => rfl
    | cons b l3 => simp only [List.getLastD_cons]

/-- A row is never empty. -/
theorem rowFor_ne_nil (A Brev t2 : List Char) : rowFor A Brev t2 ≠ [] := by
  cases t2 <;> simp [rowFor]

/-- The last cell of a row is the `levSpec` value against the fully
consumed text. -/
theorem rowFor_getLastD (A : List Char) : ∀ (t2 B : List Char),
    (rowFor A B t2).getLastD 0 = levSpec A (t2.reverse ++ B) := by
  intro t2
  induction t2 with
  | nil => intro B; simp [rowFor]
  | cons c cs ih =>
    intro B
    simp only [rowFor, List.getLastD_cons]
    rw [getLastD_congr _ (rowFor_ne_nil A (c :: B) cs) _ 0, ih (c :: B),
      List.reverse_cons, List.append_assoc]
    rfl

/-- The embedded dynamic program computes exactly the textbook unit-cost
Levenshtein distance. -/
theorem levenshteinDistance_eq_levSpec (s1 s2 : List Char) :
    levenshteinDistance s1 s2 = levSpec s1 s2 := by
  unfold levenshteinDistance
  have h0 : List.range (s2.length + 1) = rowFor [] [] s2 := by
    rw [rowFor_nil s2 []]
    simp
  rw [h0]
  have h1 := levRows_spec s2 s1 []
  simp only [List.length_nil, List.append_nil] at h1
  rw [h1, rowFor_getLastD, List.append_nil]
  exact levSpec_reverse (s1.length + s2.length) s1 s2 (le_refl _)


/-- C4: when additionally at least one query character is absent from
the text and the normalized edit-distance similarity is at least 50, the
score is that similarity discounted by 0.7, with `d` the classic
unit-cost Levenshtein distance (`levSpec`, which the dynamic program of
the code computes by `levenshteinDistance_eq_levSpec`) of the
lower-cased strings and `m` the maximum of their lengths. -/
theorem similarity_editdist_branch (q t : List Char) (hq : q ≠ []) (ht : t ≠ [])
    (hne : toLowerStr t ≠ toLowerStr q)
    (hpre : ¬ toLowerStr q <+: toLowerStr t)
    (hinf : ¬ toLowerStr q <:+: toLowerStr t)
    (hmiss : ¬ ∀ c ∈ toLowerStr q, c ∈ toLowerStr t)
    (hsim : (50 : ℚ) ≤ (1 - (levSpec (toLowerStr q) (toLowerStr t) : ℚ) /
      ((Nat.max (toLowerStr q).length (toLowerStr t).length : Nat) : ℚ)) * 100) :
    calculateSimilarity q t =
      (1 - (levSpec (toLowerStr q) (toLowerStr t) : ℚ) /
        ((Nat.max (toLowerStr q).length (toLowerStr t).length : Nat) : ℚ)) *
        100 * 0.7 := by
  have he : normalizedEditSimilarity (toLowerStr q) (toLowerStr t) =
      (1 - (levSpec (toLowerStr q) (toLowerStr t) : ℚ) /
        ((Nat.max (toLowerStr q).length (toLowerStr t).length : Nat) : ℚ)) * 100 := by
    unfold normalizedEditSimilarity
    rw [levenshteinDistance_eq_levSpec]
  rw [← he] at hsim ⊢
  have hmax : 0 < Nat.max (toLowerStr q).length (toLowerStr t).length := by
    have h1 : 0 < (toLowerStr q).length := by
      rw [toLowerStr_length]
      exact List.length_pos.mpr hq
    exact Nat.lt_of_lt_of_le h1 (Nat.le_max_left _ _)
  simp only [calculateSimilarity]
  rw [if_neg (by simp [hq, ht]), if_neg hne, if_neg hpre, if_neg hinf,
    if_neg (fun hh => hmiss ((hasAllCharacters_iff _ _).mp hh)),
    if_pos ⟨hmax, hsim⟩]

/-- C4 witness: `"abcd"` against `"abcx"` (distance 1, similarity 75)
scores 75 · 0.7 = 52.5. -/
theorem similarity_editdist_branch_witness :
    calculateSimilarity "abcd".toList "abcx".toList = 105 / 2 := by
  rw [similarity_editdist_branch "abcd".toList "abcx".toList (by decide)
    (by decide) (by decide) (by decide) (by decide) (by decide)
    (by rw [← levenshteinDistance_eq_levSpec]; decide)]
  rw [← levenshteinDistance_eq_levSpec]
  decide

/-- Any score from the fuzzy rules (character-set, edit-distance,
subsequence, frequency) is at most 80. -/
theorem similarity_le_80 (q t : List Char)
    (hne : toLowerStr t ≠ toLowerStr q)
    (hpre : ¬ toLowerStr q <+: toLowerStr t)
    (hinf : ¬ toLowerStr q <:+: toLowerStr t) :
    calculateSimilarity q t ≤ 80 := by
  by_cases h0 : q = [] ∨ t = []
  · simp only [calculateSimilarity]
    rw [if_pos h0]
    norm_num
  · simp only [calculateSimilarity]
    rw [if_neg h0, if_neg hne, if_neg hpre, if_neg hinf]
    by_cases h4 : hasAllCharacters (toLowerStr q) (toLowerStr t) = true
    · rw [if_pos h4]
      apply max_le
      · split <;> norm_num
      · have h := characterFrequencyScore_le_100 (toLowerStr q) (toLowerStr t)
        linarith
    · rw [if_neg h4]
      by_cases h5 : 0 < Nat.max (toLowerStr q).length (toLowerStr t).length ∧
          (50 : ℚ) ≤ normalizedEditSimilarity (toLowerStr q) (toLowerStr t)
      · rw [if_pos h5]
        have h := normalizedEditSimilarity_le_100 (toLowerStr q) (toLowerStr t)
        linarith
      · rw [if_neg h5]
        by_cases h6 : isSubsequence (toLowerStr q) (toLowerStr t) = true
        · rw [if_pos h6]
          norm_num
        · rw [if_neg h6]
          by_cases h7 : (60 : ℚ) < characterFrequencyScore (toLowerStr q) (toLowerStr t)
          · rw [if_pos h7]
            have h := characterFrequencyScore_le_100 (toLowerStr q) (toLowerStr t)
            linarith
          · rw [if_neg h7]
            norm_num

/-- An exact, prefix or substring match on non-empty inputs scores at
least 85. -/
theorem similarity_structural_ge_85 (q t : List Char) (hq : q ≠ []) (ht : t ≠ [])
    (h : toLowerStr t = toLowerStr q ∨ toLowerStr q <+: toLowerStr t ∨
      toLowerStr q <:+: toLowerStr t) :
    (85 : ℚ) ≤ calculateSimilarity q t := by
  simp only [calculateSimilarity]
  rw [if_neg (by simp [hq, ht])]
  by_cases h1 : toLowerStr t = toLowerStr q
  · rw [if_pos h1]
    norm_num
  · rw [if_neg h1]
    by_cases h2 : toLowerStr q <+: toLowerStr t
    · rw [if_pos h2]
      norm_num
    · rw [if_neg h2]
      have h3 : toLowerStr q <:+: toLowerStr t := by
        rcases h with h | h | h
        · exact absurd h h1
        · exact absurd h h2
        · exact h
      rw [if_pos h3]

/-- C10: a pair with no exact, prefix or substring match scores at most
80, hence strictly below every exact, prefix or substring match (which
scores at least 85) on non-empty inputs. -/
theorem fuzzy_scores_below_structural (q t : List Char)
    (hne : toLowerStr t ≠ toLowerStr q)
    (hpre : ¬ toLowerStr q <+: toLowerStr t)
    (hinf : ¬ toLowerStr q <:+: toLowerStr t) :
    calculateSimilarity q t ≤ 80 ∧
      ∀ q2 t2 : List Char, q2 ≠ [] → t2 ≠ [] →
        (toLowerStr t2 = toLowerStr q2 ∨ toLowerStr q2 <+: toLowerStr t2 ∨
          toLowerStr q2 <:+: toLowerStr t2) →
        calculateSimilarity q t < calculateSimilarity q2 t2 := by
  refine ⟨similarity_le_80 q t hne hpre hinf, ?_⟩
  intro q2 t2 hq2 ht2 hmatch
  have h1 := similarity_le_80 q t hne hpre hinf
  have h2 := similarity_structural_ge_85 q2 t2 hq2 ht2 hmatch
  linarith

/-- C10 witness: the no-match pair `("xy", "ab")` scores strictly below
the prefix-match pair `("a", "ab")`. -/
theorem fuzzy_scores_below_structural_witness :
    calculateSimilarity "xy".toList "ab".toList <
      calculateSimilarity "a".toList "ab".toList :=
  (fuzzy_scores_below_structural "xy".toList "ab".toList (by decide) (by decide)
    (by decide)).2 "a".toList "ab".toList (by decide) (by decide)
    (Or.inr (Or.inl (by decide)))

/-- One selection action preserves the capacity bound and the
distinctness of selected symbols. -/
theorem applyOp_preserves (st : SearchState) (op : SelOp)
    (h5 : st.selectedStocks.length ≤ 5)
    (hnd : (st.selectedStocks.map SelectedStock.symbol).Nodup) :
    (applyOp st op).selectedStocks.length ≤ 5 ∧
      ((applyOp st op).selectedStocks.map SelectedStock.symbol).Nodup := by
  cases op with
  | add stock =>
    simp only [applyOp]
    unfold handleAddStock
    by_cases hc : 5 ≤ st.selectedStocks.length
    · rw [if_pos hc]
      exact ⟨h5, hnd⟩
    · rw [if_neg hc]
      by_cases hany :
          st.selectedStocks.any (fun s => decide (s.symbol = stock.symbol)) = true
      · rw [if_pos hany]
        exact ⟨h5, hnd⟩
      · rw [if_neg hany]
        constructor
        · simp only [List.length_append, List.length_singleton]
          omega
        · rw [List.map_append, List.map_singleton, List.nodup_append]
          refine ⟨hnd, List.nodup_singleton _, ?_⟩
          intro a ha hmem
          obtain ⟨s, hs, hsy⟩ := List.mem_map.mp ha
          apply hany
          rw [List.any_eq_true]
          refine ⟨s, hs, ?_⟩
          simp only [List.mem_singleton] at hmem
          simp [hsy, hmem]
  | remove sym =>
    simp only [applyOp]
    unfold handleRemoveStock
    constructor
    · exact le_trans (List.length_filter_le _ _) h5
    · exact hnd.sublist ((List.filter_sublist _).map _)

/-- The general invariant, stated for an arbitrary starting state. -/
theorem applyOps_preserves (ops : List SelOp) :
    ∀ st : SearchState, st.selectedStocks.length ≤ 5 →
      (st.selectedStocks.map SelectedStock.symbol).Nodup →
      (applyOps st ops).selectedStocks.length ≤ 5 ∧
        ((applyOps st ops).selectedStocks.map SelectedStock.symbol).Nodup := by
  induction ops with
  | nil =>
    intro st h1 h2
    exact ⟨h1, h2⟩
  | cons op rest ih =>
    intro st h1 h2
    have hstep := applyOp_preserves st op h1 h2
    have hrw : applyOps st (op :: rest) = applyOps (applyOp st op) rest := by
      simp [applyOps]
    rw [hrw]
    exact ih (applyOp st op) hstep.1 hstep.2

/-- C5: every selection state reachable from the empty selection by add
and remove actions has at most 5 entries and pairwise-distinct symbols. -/
theorem selection_invariant (ops : List SelOp) :
    (applyOps initialState ops).selectedStocks.length ≤ 5 ∧
      ((applyOps initialState ops).selectedStocks.map SelectedStock.symbol).Nodup :=
  applyOps_preserves ops initialState (by simp [initialState])
    (by simp [initialState])

/-- C6: on a valid selection state, adding is a no-op at capacity 5 or on
a duplicate symbol (no error is surfaced: the state is returned intact);
otherwise it appends exactly one entry at the end, with the placeholder
image at the index given by the previous selection length, and clears
the keyword. -/
theorem handleAddStock_spec (st : SearchState) (stock : Stock)
    (hlen : st.selectedStocks.length ≤ 5) :
    ((st.selectedStocks.length = 5 ∨ ∃ s ∈ st.selectedStocks, s.symbol = stock.symbol) →
        handleAddStock st stock = st) ∧
      (st.selectedStocks.length ≠ 5 →
        (∀ s ∈ st.selectedStocks, s.symbol ≠ stock.symbol) →
        handleAddStock st stock =
          { keyword := [],
            selectedStocks := st.selectedStocks ++
              [{ symbol := stock.symbol, name := stock.name, krName := stock.krName,
                 src := defaultImages.getD st.selectedStocks.length "" }] }) := by
  constructor
  · intro h
    unfold handleAddStock
    rcases h with h | h
    · rw [if_pos (by omega)]
    · by_cases h5 : 5 ≤ st.selectedStocks.length
      · rw [if_pos h5]
      · have hany :
            st.selectedStocks.any (fun s => decide (s.symbol = stock.symbol)) = true := by
          rw [List.any_eq_true]
          obtain ⟨s, hs, he⟩ := h
          exact ⟨s, hs, by simp [he]⟩
        rw [if_neg h5, if_pos hany]
  · intro h5 hnone
    have hlt : ¬5 ≤ st.selectedStocks.length := by omega
    have hany :
        ¬st.selectedStocks.any (fun s => decide (s.symbol = stock.symbol)) = true := by
      simp only [List.any_eq_true, decide_eq_true_eq, not_exists]
      push_neg
      exact hnone
    unfold handleAddStock
    rw [if_neg hlt, if_neg hany]

/-- C6 witness: adding a 6th distinct stock to a full selection of 5
leaves the state unchanged. -/
theorem handleAddStock_spec_witness :
    handleAddStock
        { keyword := [],
          selectedStocks :=
            [{ symbol := ['a'], name := [], krName := none, src := "" },
             { symbol := ['b'], name := [], krName := none, src := "" },
             { symbol := ['c'], name := [], krName := none, src := "" },
             { symbol := ['d'], name := [], krName := none, src := "" },
             { symbol := ['e'], name := [], krName := none, src := "" }] }
        { symbol := ['f'], name := [], krName := none } =
      { keyword := [],
        selectedStocks :=
          [{ symbol := ['a'], name := [], krName := none, src := "" },
           { symbol := ['b'], name := [], krName := none, src := "" },
           { symbol := ['c'], name := [], krName := none, src := "" },
           { symbol := ['d'], name := [], krName := none, src := "" },
           { symbol := ['e'], name := [], krName := none, src := "" }] } :=
  (handleAddStock_spec _ _ (by decide)).1 (Or.inl (by decide))

/-- C7: on a selection with distinct symbols, removing an absent symbol
is a no-op, and removing a present symbol deletes exactly that entry,
keeping every other entry intact and in order. -/
theorem handleRemoveStock_spec (st : SearchState) (sym : List Char)
    (hnodup : (st.selectedStocks.map SelectedStock.symbol).Nodup) :
    ((∀ s ∈ st.selectedStocks, s.symbol ≠ sym) → handleRemoveStock st sym = st) ∧
      (∀ l1 s l2, st.selectedStocks = l1 ++ s :: l2 → s.symbol = sym →
        handleRemoveStock st sym = { st with selectedStocks := l1 ++ l2 }) := by
  constructor
  · intro hall
    unfold handleRemoveStock
    rw [List.filter_eq_self.mpr fun a ha => by simpa using hall a ha]
  · intro l1 s l2 hdec hsym
    have hnd : (l1.map SelectedStock.symbol ++
        sym :: l2.map SelectedStock.symbol).Nodup := by
      have h0 := hnodup
      rw [hdec] at h0
      simpa [List.map_append, hsym] using h0
    have hsyml1 : sym ∉ l1.map SelectedStock.symbol := by
      intro hmem
      exact (List.nodup_append.mp hnd).2.2 hmem (List.mem_cons_self _ _)
    have hsyml2 : sym ∉ l2.map SelectedStock.symbol :=
      (List.nodup_cons.mp (List.nodup_append.mp hnd).2.1).1
    have hl1 : ∀ x ∈ l1, x.symbol ≠ sym := fun x hx heq =>
      hsyml1 (heq ▸ List.mem_map_of_mem SelectedStock.symbol hx)
    have hl2 : ∀ x ∈ l2, x.symbol ≠ sym := fun x hx heq =>
      hsyml2 (heq ▸ List.mem_map_of_mem SelectedStock.symbol hx)
    have hfil : (l1 ++ s :: l2).filter (fun x => decide (x.symbol ≠ sym)) =
        l1 ++ l2 := by
      rw [List.filter_append, List.filter_cons_of_neg (by simp [hsym]),
        List.filter_eq_self.mpr fun a ha => by simpa using hl1 a ha,
        List.filter_eq_self.mpr fun a ha => by simpa using hl2 a ha]
    unfold handleRemoveStock
    rw [hdec, hfil]

/-- C7 witness: removing the first of two selected symbols keeps exactly
the other, in place. -/
theorem handleRemoveStock_spec_witness :
    handleRemoveStock
        { keyword := ['q'],
          selectedStocks :=
            [{ symbol := ['a'], name := [], krName := none, src := "" },
             { symbol := ['b'], name := [], krName := none, src := "" }] }
        ['a'] =
      { keyword := ['q'],
        selectedStocks :=
          [{ symbol := ['b'], name := [], krName := none, src := "" }] } :=
  (handleRemoveStock_spec _ _ (by decide)).2 []
    { symbol := ['a'], name := [], krName := none, src := "" }
    [{ symbol := ['b'], name := [], krName := none, src := "" }] rfl rfl

/-- Every scored pair in `results` carries the combined score of its
stock, and that score exceeds the discard threshold 25. -/
theorem mem_fuzzyResults (q : List Char) (l : List Stock) (p : Stock × ℚ)
    (hp : p ∈ fuzzyResults q l) : p.2 = combinedScore q p.1 ∧ 25 < p.2 := by
  unfold fuzzyResults at hp
  obtain ⟨a, ha, hfa⟩ := List.mem_filterMap.mp hp
  by_cases hc : 25 < combinedScore q a
  · rw [if_pos hc] at hfa
    obtain rfl := Option.some.inj hfa
    exact ⟨rfl, hc⟩
  · rw [if_neg hc] at hfa
    simp at hfa

/-- The sort comparator is transitive. -/
theorem byScoreDesc_trans (a b c : Stock × ℚ) (h1 : byScoreDesc a b)
    (h2 : byScoreDesc b c) : byScoreDesc a c := by
  simp only [byScoreDesc, decide_eq_true_eq] at h1 h2 ⊢
  exact le_trans h2 h1

/-- The sort comparator is total. -/
theorem byScoreDesc_total (a b : Stock × ℚ) : byScoreDesc a b || byScoreDesc b a := by
  simp only [byScoreDesc, Bool.or_eq_true, decide_eq_true_eq]
  exact le_total b.2 a.2

/-- C1: `rank` returns at most 10 entries, in non-increasing order of
combined score, never one whose combined score is at most 25, and the
empty list when the query trims to whitespace. -/
theorem fuzzySearch_rank_bounds (q : List Char) (catalog : List Stock) :
    (fuzzySearch q catalog).length ≤ 10 ∧
      ((fuzzySearch q catalog).map (combinedScore q)).Pairwise (· ≥ ·) ∧
      (∀ s ∈ fuzzySearch q catalog, 25 < combinedScore q s) ∧
      (trim q = [] → fuzzySearch q catalog = []) := by
  by_cases htrim : trim q = []
  · unfold fuzzySearch
    rw [if_pos htrim]
    simp
  · have hmem : ∀ p ∈ ((fuzzyResults q catalog).mergeSort byScoreDesc).take 10,
        p.2 = combinedScore q p.1 ∧ 25 < p.2 := by
      intro p hp
      have hp1 : p ∈ (fuzzyResults q catalog).mergeSort byScoreDesc :=
        List.take_subset _ _ hp
      have hp2 : p ∈ fuzzyResults q catalog :=
        (List.mergeSort_perm (fuzzyResults q catalog) byScoreDesc).mem_iff.mp hp1
      exact mem_fuzzyResults q catalog p hp2
    unfold fuzzySearch
    rw [if_neg htrim]
    refine ⟨?_, ?_, ?_, fun h => absurd h htrim⟩
    · rw [List.length_map, List.length_take]
      exact min_le_left _ _
    · have hs : ((fuzzyResults q catalog).mergeSort byScoreDesc).Pairwise
          (fun a b => byScoreDesc a b) :=
        List.sorted_mergeSort byScoreDesc_trans byScoreDesc_total _
      have ht : (((fuzzyResults q catalog).mergeSort byScoreDesc).take 10).Pairwise
          (fun a b => byScoreDesc a b) :=
        List.Pairwise.sublist (List.take_sublist _ _) hs
      rw [List.map_map, List.pairwise_map]
      refine List.Pairwise.imp_of_mem ?_ ht
      intro a b ha hb hab
      have ha2 := (hmem a ha).1
      have hb2 := (hmem b hb).1
      simp only [byScoreDesc, decide_eq_true_eq] at hab
      simp only [Function.comp]
      rw [← ha2, ← hb2]
      exact hab
    · intro s hs'
      obtain ⟨p, hp, rfl⟩ := List.mem_map.mp hs'
      have := (hmem p hp).1 ▸ (hmem p hp).2
      exact this

/-- C1 witness: a whitespace-only query returns the empty list on a
non-empty catalog. -/
theorem fuzzySearch_rank_bounds_witness :
    fuzzySearch "  ".toList
        [{ symbol := "AAPL".toList, name := "Apple Inc.".toList, krName := none }] =
      [] :=
  (fuzzySearch_rank_bounds "  ".toList
    [{ symbol := "AAPL".toList, name := "Apple Inc.".toList, krName := none }]).2.2.2
    (by decide)

/-- The AAPL catalog entry of the end-to-end scenario. -/
def aaplStock : Stock :=
  { symbol := "AAPL".toList, name := "Apple Inc.".toList, krName := none }

/-- The MSFT catalog entry of the end-to-end scenario. -/
def msftStock : Stock :=
  { symbol := "MSFT".toList, name := "Microsoft Corp.".toList, krName := none }

/-- C9: on the catalog [AAPL, MSFT] the query `"appl"` returns exactly
[AAPL]: AAPL's name score is the prefix-match 95 (which is also its
combined score), while MSFT's combined score is 0 and is filtered out. -/
theorem end_to_end_appl :
    fuzzySearch "appl".toList [aaplStock, msftStock] = [aaplStock] ∧
      calculateSimilarity "appl".toList "Apple Inc.".toList = 95 ∧
      combinedScore "appl".toList msftStock = 0 ∧
      combinedScore "appl".toList aaplStock = 95 := by
  refine ⟨?_, by decide, by decide, by decide⟩
  have hres : fuzzyResults "appl".toList [aaplStock, msftStock] =
      [(aaplStock, 95)] := by decide
  unfold fuzzySearch
  rw [if_neg (by decide), hres, List.mergeSort_singleton]
  decide

/-- Sanity: the embedded dynamic program computes the textbook value on
the classic example. -/
theorem levenshteinDistance_kitten :
    levenshteinDistance "kitten".toList "sitting".toList = 3 := by decide
